import Mathlib

/-!
Verification development for the semiring algebra layer of
`src/model/torch_struct/semirings/semirings.py`.

Tensors are modelled shallowly as a shape (a list of dimension sizes)
together with a total valuation on integer multi-indices; float arithmetic
is modelled by exact real arithmetic.  Reductions along an axis, axis
insertion/removal, component selection on the leading semiring axis,
stacking, flattening and top-k selection are defined to mirror the torch
primitives used by the source file.  Calls whose preconditions the source
enforces with `assert`, or which torch itself rejects (a reduction
dimension out of range), are modelled with `Option`-returning functions.
-/

namespace Semirings

/-- Large negative sentinel standing in for negative infinity
(source: `NEGINF = -1e12`). -/
noncomputable def NEGINF : ℝ := -1e12

/-- A dense tensor: a shape and a total valuation on multi-indices.  Only
indices that are in bounds for the shape are meaningful; operations below
are defined uniformly on all indices. -/
@[ext]
structure Tensor where
  shape : List ℕ
  val : List ℕ → ℝ

namespace Tensor

/-- Number of axes. -/
def rank (t : Tensor) : ℕ := t.shape.length

/-- Size of axis `m` (0 when out of range). -/
def dimSize (t : Tensor) (m : ℕ) : ℕ := t.shape.getD m 0

/-- Validity of a multi-index for a shape: same length, every coordinate
in bounds. -/
def Ix : List ℕ → List ℕ → Prop
  | [], [] => True
  | n :: sh, i :: ix => i < n ∧ Ix sh ix
  | _, _ => False

/-- Extensional equality of tensors: same shape and the same entries at
every valid index.  This is the notion of equality torch exposes. -/
def Teq (a b : Tensor) : Prop :=
  a.shape = b.shape ∧ ∀ ix, Ix a.shape ix → a.val ix = b.val ix

theorem Ix.length_eq : ∀ {sh ix : List ℕ}, Ix sh ix → ix.length = sh.length
  | [], [], _ => rfl
  | _ :: sh, _ :: ix, h => by
      simp [@Ix.length_eq sh ix h.2]
  | [], _ :: _, h => h.elim
  | _ :: _, [], h => h.elim

/-- torch's dimension normalization: a negative axis counts from the end
of a rank-`r` tensor. -/
def normDim (r : ℕ) (d : ℤ) : ℕ := (if d < 0 then d + r else d).toNat

/-- torch accepts a reduction axis `d` for a rank-`r` tensor iff
`-r ≤ d < r`. -/
def dimOk (r : ℕ) (d : ℤ) : Prop := -(r : ℤ) ≤ d ∧ d < r

instance (r : ℕ) (d : ℤ) : Decidable (dimOk r d) := by
  unfold dimOk; infer_instance

/-- The list of entries along axis `m`, holding the other coordinates of
the reduced-tensor index `ix` fixed (mirrors iterating a torch reduction
axis). -/
def axisListAt (t : Tensor) (m : ℕ) (ix : List ℕ) : List ℝ :=
  (List.range (t.dimSize m)).map (fun j => t.val (ix.insertIdx m j))

/-- `torch.logsumexp(t, dim=m)` at an already-normalized axis `m`. -/
noncomputable def lseAt (t : Tensor) (m : ℕ) : Tensor :=
  ⟨t.shape.eraseIdx m,
   fun ix => Real.log (∑ j ∈ Finset.range (t.dimSize m),
     Real.exp (t.val (ix.insertIdx m j)))⟩

/-- `torch.sum(t, dim=m)` at an already-normalized axis `m`. -/
noncomputable def sumAt (t : Tensor) (m : ℕ) : Tensor :=
  ⟨t.shape.eraseIdx m,
   fun ix => ∑ j ∈ Finset.range (t.dimSize m), t.val (ix.insertIdx m j)⟩

/-- `torch.max(t, dim=m)[0]` at an already-normalized axis `m`. -/
noncomputable def maxAt (t : Tensor) (m : ℕ) : Tensor :=
  ⟨t.shape.eraseIdx m, fun ix => ((axisListAt t m ix).max?).getD 0⟩

/-- `t.unsqueeze(m)` at an already-normalized axis `m`: insert a size-1
axis.  The valuation ignores the inserted coordinate, which also realizes
torch's broadcasting of the size-1 axis in the pointwise operations
below. -/
def unsqueezeAt (t : Tensor) (m : ℕ) : Tensor :=
  ⟨t.shape.insertIdx m 1, fun ix => t.val (ix.eraseIdx m)⟩

/-- `t[i]`: select slice `i` of the leading axis. -/
def comp (t : Tensor) (i : ℕ) : Tensor :=
  ⟨t.shape.tail, fun ix => t.val (i :: ix)⟩

/-- `t[i] = c`: replace slice `i` of the leading axis by `c` (the
functional image of the in-place slice assignment). -/
def setComp (t : Tensor) (i : ℕ) (c : Tensor) : Tensor :=
  ⟨t.shape, fun ix =>
    match ix with
    | [] => t.val []
    | j :: ix => if j = i then c.val ix else t.val (j :: ix)⟩

/-- `t.fill_(c)` (functional image). -/
def fill (t : Tensor) (c : ℝ) : Tensor := ⟨t.shape, fun _ => c⟩

/-- Pointwise binary operation on same-shape tensors. -/
def map2 (f : ℝ → ℝ → ℝ) (a b : Tensor) : Tensor :=
  ⟨a.shape, fun ix => f (a.val ix) (b.val ix)⟩

/-- `a + b` pointwise. -/
def add (a b : Tensor) : Tensor := map2 (fun x y => x + y) a b

/-- `a - b` pointwise. -/
def sub (a b : Tensor) : Tensor := map2 (fun x y => x - y) a b

/-- `a.mul(b)` pointwise (Hadamard product). -/
def hmul (a b : Tensor) : Tensor := map2 (fun x y => x * y) a b

/-- `t.exp()` pointwise. -/
noncomputable def texp (t : Tensor) : Tensor := ⟨t.shape, fun ix => Real.exp (t.val ix)⟩

/-- `torch.stack(ts)` (dim 0): new leading axis indexing the listed
tensors. -/
def stack (ts : List Tensor) : Tensor :=
  ⟨ts.length :: (ts.headD ⟨[], fun _ => 0⟩).shape,
   fun ix =>
     match ix with
     | [] => 0
     | i :: ix => (ts.getD i ⟨[], fun _ => 0⟩).val ix⟩

/-- `torch.stack([a, b], dim=-1)`: new trailing axis of size 2. -/
def stackLast2 (a b : Tensor) : Tensor :=
  ⟨a.shape ++ [2],
   fun ix => if ix.getLastD 1 = 0 then a.val ix.dropLast else b.val ix.dropLast⟩

/-- `t.squeeze(0)`: drop the leading axis when it has size 1, otherwise
return the tensor unchanged. -/
def squeeze0 (t : Tensor) : Tensor :=
  if t.shape.headD 0 = 1 then ⟨t.shape.tail, fun ix => t.val (0 :: ix)⟩ else t

end Tensor

/-- A boolean mask tensor (no leading semiring axis). -/
structure BoolTensor where
  shape : List ℕ
  val : List ℕ → Bool

/-- `t.masked_fill_(mask, c)` (functional image), for a mask of `t`'s own
shape. -/
def maskedFill (t : Tensor) (mask : BoolTensor) (c : ℝ) : Tensor :=
  ⟨t.shape, fun ix => if mask.val ix then c else t.val ix⟩

/-- `xs[i].masked_fill_(mask, c)` as an update of the composite tensor
`xs`. -/
def compMaskedFill (xs : Tensor) (i : ℕ) (mask : BoolTensor) (c : ℝ) : Tensor :=
  xs.setComp i (maskedFill (xs.comp i) mask c)

/-! ### The abstract `Semiring` base class (shared method bodies) -/

namespace Semiring

/-- `Semiring.size`: the default leading-dimension width. -/
def size : ℕ := 1

/-- `Semiring.convert`: add an extra leading axis. -/
def convert (potentials : Tensor) : Tensor := potentials.unsqueezeAt 0

/-- `Semiring.unconvert`: remove the extra leading axis. -/
def unconvert (potentials : Tensor) : Tensor := potentials.squeeze0

/-- `Semiring.zero_mask_` (functional image): fill every component at the
masked positions with the class scalar `cls.zero` (the mask is broadcast
over the leading axis via `mask.unsqueeze(0)`). -/
def zero_mask_ (z : ℝ) (xs : Tensor) (mask : BoolTensor) : Tensor :=
  ⟨xs.shape, fun ix => if mask.val ix.tail then z else xs.val ix⟩

end Semiring

/-! ### `_Base` (counting family) and `_BaseLog` (log-domain family) -/

namespace BaseStd

/-- `_Base.mul`: pointwise product; `_Base.zero = 0`. -/
def mul (a b : Tensor) : Tensor := a.hmul b

/-- `_Base.zero_`: fill with 0. -/
def zero_ (xs : Tensor) : Tensor := xs.fill 0

/-- `_Base.one_`: fill with 1. -/
def one_ (xs : Tensor) : Tensor := xs.fill 1

end BaseStd

namespace BaseLog

/-- `_BaseLog.sum`: `torch.logsumexp(xs, dim)`, rejecting an out-of-range
axis as torch does. -/
noncomputable def sum (xs : Tensor) (dim : ℤ) : Option Tensor :=
  if Tensor.dimOk xs.rank dim then some (xs.lseAt (Tensor.normDim xs.rank dim)) else none

/-- `_BaseLog.mul`: pointwise addition. -/
def mul (a b : Tensor) : Tensor := a.add b

/-- `_BaseLog.zero_`: fill with the `NEGINF` sentinel. -/
noncomputable def zero_ (xs : Tensor) : Tensor := xs.fill NEGINF

/-- `_BaseLog.one_`: fill with 0. -/
def one_ (xs : Tensor) : Tensor := xs.fill 0

end BaseLog

/-! ### Counting, Log and Max semirings -/

namespace StdSemiring

def size : ℕ := Semiring.size
def convert (p : Tensor) : Tensor := Semiring.convert p
def unconvert (p : Tensor) : Tensor := Semiring.unconvert p
def mul (a b : Tensor) : Tensor := BaseStd.mul a b

/-- `StdSemiring.sum`: `torch.sum(xs, dim)`, rejecting an out-of-range
axis as torch does. -/
noncomputable def sum (xs : Tensor) (dim : ℤ) : Option Tensor :=
  if Tensor.dimOk xs.rank dim then some (xs.sumAt (Tensor.normDim xs.rank dim)) else none

/-- `Semiring.plus` specialised to the counting semiring:
`cls.sum(torch.stack([a, b], dim=-1))`. -/
noncomputable def plus (a b : Tensor) : Option Tensor :=
  sum (Tensor.stackLast2 a b) (-1)

def zero_ (xs : Tensor) : Tensor := BaseStd.zero_ xs
def one_ (xs : Tensor) : Tensor := BaseStd.one_ xs

end StdSemiring

namespace LogSemiring

def size : ℕ := Semiring.size
def convert (p : Tensor) : Tensor := Semiring.convert p
def unconvert (p : Tensor) : Tensor := Semiring.unconvert p
noncomputable def sum (xs : Tensor) (dim : ℤ) : Option Tensor := BaseLog.sum xs dim
def mul (a b : Tensor) : Tensor := BaseLog.mul a b
noncomputable def zero_ (xs : Tensor) : Tensor := BaseLog.zero_ xs
def one_ (xs : Tensor) : Tensor := BaseLog.one_ xs

end LogSemiring

namespace MaxSemiring

def size : ℕ := Semiring.size
def convert (p : Tensor) : Tensor := Semiring.convert p
def unconvert (p : Tensor) : Tensor := Semiring.unconvert p

/-- `MaxSemiring.sum`: `torch.max(xs, dim=dim)[0]`, rejecting an
out-of-range axis as torch does. -/
noncomputable def sum (xs : Tensor) (dim : ℤ) : Option Tensor :=
  if Tensor.dimOk xs.rank dim then some (xs.maxAt (Tensor.normDim xs.rank dim)) else none

def mul (a b : Tensor) : Tensor := BaseLog.mul a b
noncomputable def zero_ (xs : Tensor) : Tensor := BaseLog.zero_ xs
def one_ (xs : Tensor) : Tensor := BaseLog.one_ xs

end MaxSemiring

/-! ### The K-Max semiring factory -/

/-- Sort a list of scores in descending order (the order in which
`torch.topk` returns its values). -/
noncomputable def sortDescend (l : List ℝ) : List ℝ :=
  l.insertionSort (fun x y => x ≥ y)

namespace KMaxSemiring

/-- `KMaxSemiring(k).size`. -/
def size (k : ℕ) : ℕ := k

/-- `KMaxSemiring(k).convert`: allocate a `(k, …)` block of zeros, fill
it with the additive identity, and write the original potentials into
slot 0. -/
noncomputable def convert (k : ℕ) (orig : Tensor) : Tensor :=
  ((Tensor.mk (k :: orig.shape) (fun _ => 0)).fill NEGINF).setComp 0 orig

/-- `KMaxSemiring(k).one_`: `cls.zero_(xs); xs[0].fill_(0)`. -/
noncomputable def one_ (_k : ℕ) (xs : Tensor) : Tensor :=
  (xs.fill NEGINF).setComp 0 ((xs.comp 0).fill 0)

/-- `KMaxSemiring(k).unconvert`: slot 0. -/
def unconvert (potentials : Tensor) : Tensor := potentials.comp 0

/-- `xs.permute(tuple(range(1, xs.dim())) + (0,))`: move the leading axis
to the back. -/
def moveFrontToBack (t : Tensor) : Tensor :=
  ⟨t.shape.tail ++ [t.shape.headD 0],
   fun ix => t.val (ix.getLastD 0 :: ix.dropLast)⟩

/-- `xs.contiguous().view(xs.shape[:-2] + (-1,))`: merge the last two
axes row-major. -/
def flattenLast2 (t : Tensor) : Tensor :=
  ⟨t.shape.dropLast.dropLast ++ [t.shape.dropLast.getLastD 0 * t.shape.getLastD 0],
   fun ix => t.val (ix.dropLast ++
     [ix.getLastD 0 / t.shape.getLastD 0, ix.getLastD 0 % t.shape.getLastD 0])⟩

/-- The entries along the last axis, for a fixed index prefix. -/
def axisListLast (t : Tensor) (pre : List ℕ) : List ℝ :=
  (List.range (t.shape.getLastD 0)).map (fun j => t.val (pre ++ [j]))

/-- `torch.topk(t, k, dim=-1)[0]`: the k largest entries of the last
axis, sorted descending. -/
noncomputable def topkLast (k : ℕ) (t : Tensor) : Tensor :=
  ⟨t.shape.dropLast ++ [k],
   fun ix => (sortDescend (axisListLast t ix.dropLast)).getD (ix.getLastD 0) 0⟩

/-- `xs.permute((xs.dim() - 1,) + tuple(range(0, xs.dim() - 1)))`: move
the last axis to the front. -/
def moveBackToFront (t : Tensor) : Tensor :=
  ⟨t.shape.getLastD 0 :: t.shape.dropLast,
   fun ix =>
     match ix with
     | [] => 0
     | i :: ix => t.val (ix ++ [i])⟩

/-- The `dim == -1` branch body of `KMaxSemiring(k).sum`. -/
noncomputable def sumLast (k : ℕ) (xs : Tensor) : Tensor :=
  moveBackToFront (topkLast k (flattenLast2 (moveFrontToBack xs)))

/-- `KMaxSemiring(k).sum`: only `dim == -1` is supported; every other
axis hits `assert False`. -/
noncomputable def sum (k : ℕ) (xs : Tensor) (dim : ℤ) : Option Tensor :=
  if dim = -1 then some (sumLast k xs) else none

/-- The entries along the leading axis, for a fixed index tail. -/
def axisList0 (t : Tensor) (ix : List ℕ) : List ℝ :=
  (List.range (t.shape.headD 0)).map (fun i => t.val (i :: ix))

/-- `torch.topk(c, k, 0)[0]`: the k largest entries of the leading axis,
sorted descending. -/
noncomputable def topkAt0 (k : ℕ) (t : Tensor) : Tensor :=
  ⟨k :: t.shape.tail,
   fun ix =>
     match ix with
     | [] => 0
     | i :: ix => (sortDescend (axisList0 t ix)).getD i 0⟩

/-- The broadcast pairwise-sum step of `KMaxSemiring(k).mul`:
`a.view((k, 1) + …) + b.view((1, k) + …)`, already reshaped to
`(k*k, …)` row-major, so flat slot `e` holds `a[e / k] + b[e % k]`. -/
def mulPairs (k : ℕ) (a b : Tensor) : Tensor :=
  ⟨(k * k) :: a.shape.tail,
   fun ix =>
     match ix with
     | [] => 0
     | e :: ix => a.val (e / k :: ix) + b.val (e % k :: ix)⟩

/-- `KMaxSemiring(k).mul`: all k×k pairwise sums, then top-k along the
leading axis. -/
noncomputable def mul (k : ℕ) (a b : Tensor) : Tensor :=
  topkAt0 k (mulPairs k a b)

end KMaxSemiring

/-! ### Expectation semirings -/

/-- The success condition of the expectation semirings' `sum`:
`assert dim != 0`, together with torch accepting the shifted axis
`d = dim - 1 if dim > 0 else dim` on the component tensors (of rank `r`,
the composite rank minus one). -/
def expGuard (r : ℕ) (dim : ℤ) : Prop :=
  dim ≠ 0 ∧ Tensor.dimOk r (if 0 < dim then dim - 1 else dim)

instance (r : ℕ) (dim : ℤ) : Decidable (expGuard r dim) := by
  unfold expGuard; infer_instance

/-- The component-tensor axis actually reduced by the expectation
semirings' `sum`: `d = dim - 1 if dim > 0 else dim`, normalized against
the component rank `r`. -/
def expAxis (r : ℕ) (dim : ℤ) : ℕ :=
  Tensor.normDim r (if 0 < dim then dim - 1 else dim)

/-- Shared `convert` of the three-component expectation semirings
(KL-Divergence, Cross-Entropy, Risk): a `(3, …)` block of zeros with
`values[0] = xs[0]`, `values[1] = xs[1]`, `values[2] = 0`. -/
def convert3 (p q : Tensor) : Tensor :=
  (((Tensor.mk (3 :: p.shape) (fun _ => 0)).setComp 0 p).setComp 1 q).setComp 2
    (p.fill 0)

/-- Shared `unconvert` of the expectation semirings: `xs[-1]`, the last
slice of the leading component axis (Python negative indexing). -/
def unconvertLast (xs : Tensor) : Tensor := xs.comp (xs.shape.headD 1 - 1)

namespace KLDivergenceSemiring

/-- `KLDivergenceSemiring.size`: inside of p; inside of q; mid-result. -/
def size : ℕ := 3

def convert (p q : Tensor) : Tensor := convert3 p q

def unconvert (xs : Tensor) : Tensor := unconvertLast xs

/-- Body of `KLDivergenceSemiring.sum` at the normalized component axis
`m`, mirroring the source statement for statement. -/
noncomputable def sumBody (xs : Tensor) (m : ℕ) : Tensor :=
  let part_p := (xs.comp 0).lseAt m
  let part_q := (xs.comp 1).lseAt m
  let log_sm_p := (xs.comp 0).sub (part_p.unsqueezeAt m)
  let log_sm_q := (xs.comp 1).sub (part_q.unsqueezeAt m)
  let sm_p := log_sm_p.texp
  Tensor.stack [part_p, part_q,
    ((((xs.comp 2).hmul sm_p).sub (log_sm_q.hmul sm_p)).add
      (log_sm_p.hmul sm_p)).sumAt m]

/-- `KLDivergenceSemiring.sum`. -/
noncomputable def sum (xs : Tensor) (dim : ℤ) : Option Tensor :=
  if expGuard xs.shape.tail.length dim then
    some (sumBody xs (expAxis xs.shape.tail.length dim))
  else none

def mul (a b : Tensor) : Tensor := a.add b

/-- `KLDivergenceSemiring.zero_mask_` (functional image): component-wise
masked fill. -/
noncomputable def zero_mask_ (xs : Tensor) (mask : BoolTensor) : Tensor :=
  compMaskedFill (compMaskedFill (compMaskedFill xs 0 mask NEGINF) 1 mask NEGINF)
    2 mask 0

noncomputable def zero_ (xs : Tensor) : Tensor :=
  ((xs.setComp 0 ((xs.comp 0).fill NEGINF)).setComp 1
    ((xs.comp 1).fill NEGINF)).setComp 2 ((xs.comp 2).fill 0)

def one_ (xs : Tensor) : Tensor :=
  ((xs.setComp 0 ((xs.comp 0).fill 0)).setComp 1
    ((xs.comp 1).fill 0)).setComp 2 ((xs.comp 2).fill 0)

end KLDivergenceSemiring

namespace CrossEntropySemiring

def size : ℕ := 3

def convert (p q : Tensor) : Tensor := convert3 p q

def unconvert (xs : Tensor) : Tensor := unconvertLast xs

/-- Body of `CrossEntropySemiring.sum` at the normalized component axis
`m` (same as KL-Divergence but without the `+ log_sm_p · sm_p`
self-entropy term). -/
noncomputable def sumBody (xs : Tensor) (m : ℕ) : Tensor :=
  let part_p := (xs.comp 0).lseAt m
  let part_q := (xs.comp 1).lseAt m
  let log_sm_p := (xs.comp 0).sub (part_p.unsqueezeAt m)
  let log_sm_q := (xs.comp 1).sub (part_q.unsqueezeAt m)
  let sm_p := log_sm_p.texp
  Tensor.stack [part_p, part_q,
    (((xs.comp 2).hmul sm_p).sub (log_sm_q.hmul sm_p)).sumAt m]

/-- `CrossEntropySemiring.sum`. -/
noncomputable def sum (xs : Tensor) (dim : ℤ) : Option Tensor :=
  if expGuard xs.shape.tail.length dim then
    some (sumBody xs (expAxis xs.shape.tail.length dim))
  else none

def mul (a b : Tensor) : Tensor := a.add b

noncomputable def zero_mask_ (xs : Tensor) (mask : BoolTensor) : Tensor :=
  compMaskedFill (compMaskedFill (compMaskedFill xs 0 mask NEGINF) 1 mask NEGINF)
    2 mask 0

def one_ (xs : Tensor) : Tensor :=
  ((xs.setComp 0 ((xs.comp 0).fill 0)).setComp 1
    ((xs.comp 1).fill 0)).setComp 2 ((xs.comp 2).fill 0)

end CrossEntropySemiring

namespace EntropySemiring

/-- `EntropySemiring.size`: inside; mid-result. -/
def size : ℕ := 2

/-- `EntropySemiring.convert`: a `(2, …)` block of zeros with
`values[0] = xs`, `values[1] = 0`. -/
def convert (xs : Tensor) : Tensor :=
  ((Tensor.mk (2 :: xs.shape) (fun _ => 0)).setComp 0 xs).setComp 1 (xs.fill 0)

/-- `EntropySemiring.unconvert`: `xs[1]`. -/
def unconvert (xs : Tensor) : Tensor := xs.comp 1

/-- Body of `EntropySemiring.sum` at the normalized component axis
`m`. -/
noncomputable def sumBody (xs : Tensor) (m : ℕ) : Tensor :=
  let part := (xs.comp 0).lseAt m
  let log_sm := (xs.comp 0).sub (part.unsqueezeAt m)
  let sm := log_sm.texp
  Tensor.stack [part, (((xs.comp 1).hmul sm).sub (log_sm.hmul sm)).sumAt m]

/-- `EntropySemiring.sum`. -/
noncomputable def sum (xs : Tensor) (dim : ℤ) : Option Tensor :=
  if expGuard xs.shape.tail.length dim then
    some (sumBody xs (expAxis xs.shape.tail.length dim))
  else none

def mul (a b : Tensor) : Tensor := a.add b

noncomputable def zero_mask_ (xs : Tensor) (mask : BoolTensor) : Tensor :=
  compMaskedFill (compMaskedFill xs 0 mask NEGINF) 1 mask 0

def one_ (xs : Tensor) : Tensor :=
  (xs.setComp 0 ((xs.comp 0).fill 0)).setComp 1 ((xs.comp 1).fill 0)

end EntropySemiring

namespace RiskSemiring

def size : ℕ := 3

def convert (p q : Tensor) : Tensor := convert3 p q

def unconvert (xs : Tensor) : Tensor := unconvertLast xs

/-- Body of `RiskSemiring.sum` at the normalized component axis `m`:
`(part_p, zeros_like(part_p), Σ (xs[1] + xs[2]) · softmax(p))`. -/
noncomputable def sumBody (xs : Tensor) (m : ℕ) : Tensor :=
  let part_p := (xs.comp 0).lseAt m
  let log_sm_p := (xs.comp 0).sub (part_p.unsqueezeAt m)
  let sm_p := log_sm_p.texp
  Tensor.stack [part_p, part_p.fill 0,
    (((xs.comp 1).add (xs.comp 2)).hmul sm_p).sumAt m]

/-- `RiskSemiring.sum`. -/
noncomputable def sum (xs : Tensor) (dim : ℤ) : Option Tensor :=
  if expGuard xs.shape.tail.length dim then
    some (sumBody xs (expAxis xs.shape.tail.length dim))
  else none

def mul (a b : Tensor) : Tensor := a.add b

noncomputable def zero_mask_ (xs : Tensor) (mask : BoolTensor) : Tensor :=
  compMaskedFill (compMaskedFill (compMaskedFill xs 0 mask NEGINF) 1 mask 0)
    2 mask 0

def one_ (xs : Tensor) : Tensor :=
  ((xs.setComp 0 ((xs.comp 0).fill 0)).setComp 1
    ((xs.comp 1).fill 0)).setComp 2 ((xs.comp 2).fill 0)

end RiskSemiring

/-! ### Spec-side formulas for the expectation semirings' `sum` -/

/-- Log-softmax over component axis `m`, re-derived from the inputs:
`t − logsumexp(t, m)` (broadcast). -/
noncomputable def logSoftmaxAt (t : Tensor) (m : ℕ) : Tensor :=
  t.sub ((t.lseAt m).unsqueezeAt m)

/-- Softmax over component axis `m`: `exp` of the log-softmax. -/
noncomputable def softmaxAt (t : Tensor) (m : ℕ) : Tensor :=
  (logSoftmaxAt t m).texp

/-- The result asserted by the spec for `KLDivergenceSemiring.sum`: a
3-component stack of the two re-derived log-partitions and
`Σ softmax(p) · (stat + log_sm_p − log_sm_q)` over the reduced axis. -/
noncomputable def KLsumSpec (xs : Tensor) (m : ℕ) : Tensor :=
  Tensor.stack [(xs.comp 0).lseAt m, (xs.comp 1).lseAt m,
    ((softmaxAt (xs.comp 0) m).hmul
      (((xs.comp 2).add (logSoftmaxAt (xs.comp 0) m)).sub
        (logSoftmaxAt (xs.comp 1) m))).sumAt m]

/-- The result asserted for `RiskSemiring.sum`: log-partition of the
p-stream, an identically zero cost stream, and
`Σ softmax(p) · (cost + stat)` over the reduced axis. -/
noncomputable def RiskSumSpec (xs : Tensor) (m : ℕ) : Tensor :=
  Tensor.stack [(xs.comp 0).lseAt m, ((xs.comp 0).lseAt m).fill 0,
    ((softmaxAt (xs.comp 0) m).hmul ((xs.comp 1).add (xs.comp 2))).sumAt m]

/-! ### Guard and axis arithmetic for the expectation semirings -/

theorem expGuard_ofNat (r p : ℕ) (h1 : 1 ≤ p) (h2 : p ≤ r) :
    expGuard r (p : ℤ) := by
  unfold expGuard Tensor.dimOk
  split_ifs with h <;> exact ⟨by omega, by omega, by omega⟩

theorem expAxis_ofNat (r p : ℕ) (h1 : 1 ≤ p) : expAxis r (p : ℤ) = p - 1 := by
  unfold expAxis Tensor.normDim
  split_ifs <;> omega

theorem expGuard_neg (r p : ℕ) (h1 : 1 ≤ p) (h2 : p ≤ r) :
    expGuard r ((p : ℤ) - ((r : ℤ) + 1)) := by
  unfold expGuard Tensor.dimOk
  split_ifs with h <;> exact ⟨by omega, by omega, by omega⟩

theorem expAxis_neg (r p : ℕ) (h1 : 1 ≤ p) (h2 : p ≤ r) :
    expAxis r ((p : ℤ) - ((r : ℤ) + 1)) = p - 1 := by
  unfold expAxis Tensor.normDim
  split_ifs <;> omega

/-- The statement-for-statement translation of the source's KL `sum`
body agrees with the spec's formula
`Σ softmax(p) · (stat + log_sm_p − log_sm_q)` for the third component
(and literally re-derives the two log-partitions). -/
theorem KLsumBody_eq_spec (xs : Tensor) (m : ℕ) :
    KLDivergenceSemiring.sumBody xs m = KLsumSpec xs m := by
  unfold KLDivergenceSemiring.sumBody KLsumSpec softmaxAt logSoftmaxAt
  dsimp only
  apply Tensor.ext
  · rfl
  funext ix
  cases ix with
  | nil => rfl
  | cons i ixt =>
    rcases i with _ | _ | _ | n
    · rfl
    · rfl
    · show Tensor.val (Tensor.sumAt _ m) ixt = Tensor.val (Tensor.sumAt _ m) ixt
      simp only [Tensor.sumAt, Tensor.hmul, Tensor.sub, Tensor.add, Tensor.map2,
        Tensor.texp, Tensor.dimSize]
      exact Finset.sum_congr rfl (fun j _ => by ring)
    · rfl

/-- C1: for the KL-Divergence semiring, `sum` along any accepted
(non-leading) axis returns the 3-component stack of the re-derived
log-partitions of the p- and q-streams together with
`Σ softmax(p) · (stat + log_sm_p − log_sm_q)` over the reduced axis. -/
theorem claim1_kl_sum (xs : Tensor) (dim : ℤ)
    (h : expGuard xs.shape.tail.length dim) :
    KLDivergenceSemiring.sum xs dim =
      some (KLsumSpec xs (expAxis xs.shape.tail.length dim)) := by
  unfold KLDivergenceSemiring.sum
  rw [if_pos h, KLsumBody_eq_spec]

/-- C9: the Risk semiring's `sum` zeroes the cost-stream component and
folds the costs into the running-risk component as
`Σ softmax(p) · (cost + stat)`. -/
theorem claim9_risk_sum (xs : Tensor) (dim : ℤ)
    (h : expGuard xs.shape.tail.length dim) :
    RiskSemiring.sum xs dim =
      some (RiskSumSpec xs (expAxis xs.shape.tail.length dim)) ∧
    ∀ res, RiskSemiring.sum xs dim = some res → ∀ ix, res.val (1 :: ix) = 0 := by
  have hbody : ∀ m, RiskSemiring.sumBody xs m = RiskSumSpec xs m := by
    intro m
    unfold RiskSemiring.sumBody RiskSumSpec softmaxAt logSoftmaxAt
    dsimp only
    apply Tensor.ext
    · rfl
    funext ix
    cases ix with
    | nil => rfl
    | cons i ixt =>
      rcases i with _ | _ | _ | n
      · rfl
      · rfl
      · show Tensor.val (Tensor.sumAt _ m) ixt = Tensor.val (Tensor.sumAt _ m) ixt
        simp only [Tensor.sumAt, Tensor.hmul, Tensor.sub, Tensor.add, Tensor.map2,
          Tensor.texp, Tensor.dimSize]
        exact Finset.sum_congr rfl (fun j _ => by ring)
      · rfl
  constructor
  · unfold RiskSemiring.sum
    rw [if_pos h, hbody]
  · intro res hres ix
    unfold RiskSemiring.sum at hres
    rw [if_pos h] at hres
    cases hres
    rfl

/-- C10: for every expectation semiring, a positive accepted axis `p`
reduces component axis `p − 1` (a positive `dim` indexes axes of the
composite value, including the leading component axis), and the positive
spelling `p` and the negative spelling `p − rank` of the same underlying
axis give equal results. -/
theorem claim10_expectation_dim_shift (xs : Tensor) (p : ℕ) (h1 : 1 ≤ p)
    (h2 : p ≤ xs.shape.tail.length) :
    (KLDivergenceSemiring.sum xs (p : ℤ) =
        some (KLDivergenceSemiring.sumBody xs (p - 1)) ∧
      KLDivergenceSemiring.sum xs ((p : ℤ) - (xs.rank : ℤ)) =
        some (KLDivergenceSemiring.sumBody xs (p - 1))) ∧
    (CrossEntropySemiring.sum xs (p : ℤ) =
        some (CrossEntropySemiring.sumBody xs (p - 1)) ∧
      CrossEntropySemiring.sum xs ((p : ℤ) - (xs.rank : ℤ)) =
        some (CrossEntropySemiring.sumBody xs (p - 1))) ∧
    (EntropySemiring.sum xs (p : ℤ) =
        some (EntropySemiring.sumBody xs (p - 1)) ∧
      EntropySemiring.sum xs ((p : ℤ) - (xs.rank : ℤ)) =
        some (EntropySemiring.sumBody xs (p - 1))) ∧
    (RiskSemiring.sum xs (p : ℤ) = some (RiskSemiring.sumBody xs (p - 1)) ∧
      RiskSemiring.sum xs ((p : ℤ) - (xs.rank : ℤ)) =
        some (RiskSemiring.sumBody xs (p - 1))) := by
  set r := xs.shape.tail.length with hr
  have hrank : (xs.rank : ℤ) = (r : ℤ) + 1 := by
    unfold Tensor.rank
    cases hs : xs.shape with
    | nil => rw [hs] at hr; simp at hr; omega
    | cons s sh =>
      rw [hs] at hr
      simp only [List.tail_cons] at hr
      simp [hr]
  have hg1 : expGuard r (p : ℤ) := expGuard_ofNat r p h1 h2
  have hg2 : expGuard r ((p : ℤ) - (xs.rank : ℤ)) := by
    rw [hrank]; exact expGuard_neg r p h1 h2
  have ha1 : expAxis r (p : ℤ) = p - 1 := expAxis_ofNat r p h1
  have ha2 : expAxis r ((p : ℤ) - (xs.rank : ℤ)) = p - 1 := by
    rw [hrank]; exact expAxis_neg r p h1 h2
  refine ⟨⟨?_, ?_⟩, ⟨?_, ?_⟩, ⟨?_, ?_⟩, ⟨?_, ?_⟩⟩ <;>
    first
      | (unfold KLDivergenceSemiring.sum; rw [← hr, if_pos hg1, ha1])
      | (unfold KLDivergenceSemiring.sum; rw [← hr, if_pos hg2, ha2])
      | (unfold CrossEntropySemiring.sum; rw [← hr, if_pos hg1, ha1])
      | (unfold CrossEntropySemiring.sum; rw [← hr, if_pos hg2, ha2])
      | (unfold EntropySemiring.sum; rw [← hr, if_pos hg1, ha1])
      | (unfold EntropySemiring.sum; rw [← hr, if_pos hg2, ha2])
      | (unfold RiskSemiring.sum; rw [← hr, if_pos hg1, ha1])
      | (unfold RiskSemiring.sum; rw [← hr, if_pos hg2, ha2])

/-- The expectation semirings' `sum` guard is violated whenever the
requested axis designates the leading component axis (`dim = 0`, or the
negative spelling `dim = -rank`). -/
theorem expGuard_fails_on_leading (xs : Tensor) (dim : ℤ)
    (h : dim = 0 ∨ dim = -(xs.rank : ℤ)) :
    ¬ expGuard xs.shape.tail.length dim := by
  rintro ⟨h0, hok⟩
  rcases h with h | h
  · exact h0 h
  · unfold Tensor.rank at h
    cases hs : xs.shape with
    | nil =>
      rw [hs] at h
      simp only [List.length_nil, Nat.cast_zero, neg_zero] at h
      exact h0 h
    | cons s sh =>
      rw [hs] at h hok
      simp only [List.length_cons, List.tail_cons] at h hok
      unfold Tensor.dimOk at hok
      rcases hok with ⟨hlow, hhigh⟩
      split_ifs at hlow hhigh <;> omega

/-- C5: `KMaxSemiring(k).sum` fails (`assert False`) on every reduction
axis other than `-1`, and every expectation semiring's `sum` fails when
the reduction axis designates the leading component axis (`dim = 0` is
caught by the `assert`; the negative spelling `-rank` is out of range
for the component tensors). -/
theorem claim5_unsupported_axis_errors :
    (∀ (k : ℕ) (xs : Tensor) (dim : ℤ), dim ≠ -1 →
      KMaxSemiring.sum k xs dim = none) ∧
    (∀ (xs : Tensor) (dim : ℤ), dim = 0 ∨ dim = -(xs.rank : ℤ) →
      KLDivergenceSemiring.sum xs dim = none ∧
      CrossEntropySemiring.sum xs dim = none ∧
      EntropySemiring.sum xs dim = none ∧
      RiskSemiring.sum xs dim = none) := by
  constructor
  · intro k xs dim h
    unfold KMaxSemiring.sum
    rw [if_neg h]
  · intro xs dim h
    have hng := expGuard_fails_on_leading xs dim h
    refine ⟨?_, ?_, ?_, ?_⟩
    · unfold KLDivergenceSemiring.sum; rw [if_neg hng]
    · unfold CrossEntropySemiring.sum; rw [if_neg hng]
    · unfold EntropySemiring.sum; rw [if_neg hng]
    · unfold RiskSemiring.sum; rw [if_neg hng]

/-- Witness for C5 at concrete inputs. -/
theorem claim5_unsupported_axis_errors_witness :
    ((5 : ℤ) ≠ -1 ∧
      KMaxSemiring.sum 2 (Tensor.mk [3, 2] (fun _ => 0)) 5 = none) ∧
    (((0 : ℤ) = 0 ∨ (0 : ℤ) = -((Tensor.mk [3, 2] (fun _ => 0)).rank : ℤ)) ∧
      KLDivergenceSemiring.sum (Tensor.mk [3, 2] (fun _ => 0)) 0 = none) :=
  ⟨⟨by decide, claim5_unsupported_axis_errors.1 2 _ 5 (by decide)⟩,
   ⟨Or.inl rfl,
     (claim5_unsupported_axis_errors.2 (Tensor.mk [3, 2] (fun _ => 0)) 0
       (Or.inl rfl)).1⟩⟩

/-- C8: `zero_mask_` fills every component at masked positions with that
component's own additive identity (the `NEGINF` sentinel for log-score
streams and 0 for the statistic components of the composite semirings),
leaves unmasked positions unchanged, and preserves the shape.  The base
class fills every component with the class scalar `z = cls.zero`, which
the simple semirings use with their single component's identity. -/
theorem claim8_zero_mask_fills_componentwise (z : ℝ) (xs : Tensor)
    (mask : BoolTensor) (i : ℕ) (ixT ixF : List ℕ)
    (hT : mask.val ixT = true) (hF : mask.val ixF = false) :
    ((Semiring.zero_mask_ z xs mask).shape = xs.shape ∧
      (Semiring.zero_mask_ z xs mask).val (i :: ixT) = z ∧
      (Semiring.zero_mask_ z xs mask).val (i :: ixF) = xs.val (i :: ixF)) ∧
    ((KLDivergenceSemiring.zero_mask_ xs mask).shape = xs.shape ∧
      (KLDivergenceSemiring.zero_mask_ xs mask).val (0 :: ixT) = NEGINF ∧
      (KLDivergenceSemiring.zero_mask_ xs mask).val (1 :: ixT) = NEGINF ∧
      (KLDivergenceSemiring.zero_mask_ xs mask).val (2 :: ixT) = 0 ∧
      ∀ j, (KLDivergenceSemiring.zero_mask_ xs mask).val (j :: ixF) =
        xs.val (j :: ixF)) ∧
    ((CrossEntropySemiring.zero_mask_ xs mask).shape = xs.shape ∧
      (CrossEntropySemiring.zero_mask_ xs mask).val (0 :: ixT) = NEGINF ∧
      (CrossEntropySemiring.zero_mask_ xs mask).val (1 :: ixT) = NEGINF ∧
      (CrossEntropySemiring.zero_mask_ xs mask).val (2 :: ixT) = 0 ∧
      ∀ j, (CrossEntropySemiring.zero_mask_ xs mask).val (j :: ixF) =
        xs.val (j :: ixF)) ∧
    ((EntropySemiring.zero_mask_ xs mask).shape = xs.shape ∧
      (EntropySemiring.zero_mask_ xs mask).val (0 :: ixT) = NEGINF ∧
      (EntropySemiring.zero_mask_ xs mask).val (1 :: ixT) = 0 ∧
      ∀ j, (EntropySemiring.zero_mask_ xs mask).val (j :: ixF) =
        xs.val (j :: ixF)) ∧
    ((RiskSemiring.zero_mask_ xs mask).shape = xs.shape ∧
      (RiskSemiring.zero_mask_ xs mask).val (0 :: ixT) = NEGINF ∧
      (RiskSemiring.zero_mask_ xs mask).val (1 :: ixT) = 0 ∧
      (RiskSemiring.zero_mask_ xs mask).val (2 :: ixT) = 0 ∧
      ∀ j, (RiskSemiring.zero_mask_ xs mask).val (j :: ixF) =
        xs.val (j :: ixF)) := by
  unfold KLDivergenceSemiring.zero_mask_ CrossEntropySemiring.zero_mask_
    EntropySemiring.zero_mask_ RiskSemiring.zero_mask_ Semiring.zero_mask_
    compMaskedFill maskedFill
  refine ⟨⟨rfl, ?_, ?_⟩, ⟨rfl, ?_, ?_, ?_, ?_⟩, ⟨rfl, ?_, ?_, ?_, ?_⟩,
    ⟨rfl, ?_, ?_, ?_⟩, ⟨rfl, ?_, ?_, ?_, ?_⟩⟩ <;>
    (try intro j) <;>
    simp [Tensor.setComp, Tensor.comp, hT, hF] <;>
    (split_ifs <;> simp_all)

/-- Witness for C8 at concrete inputs. -/
theorem claim8_zero_mask_fills_componentwise_witness :
    ((BoolTensor.mk [2] (fun ix => ix.headD 1 = 0)).val [0] = true ∧
      (BoolTensor.mk [2] (fun ix => ix.headD 1 = 0)).val [1] = false) ∧
    (Semiring.zero_mask_ 5 (Tensor.mk [3, 2] (fun _ => 7))
        (BoolTensor.mk [2] (fun ix => ix.headD 1 = 0))).val (0 :: [0]) = 5 := by
  refine ⟨⟨by decide, by decide⟩, ?_⟩
  exact (claim8_zero_mask_fills_componentwise 5 (Tensor.mk [3, 2] (fun _ => 7))
    (BoolTensor.mk [2] (fun ix => ix.headD 1 = 0)) 0 [0] [1] (by decide)
    (by decide)).1.2.1

/-! ### List lemmas for the top-k selection of the K-Max semiring -/

/-- Row-major flattening: mapping `e ↦ f (e / n) (e % n)` over
`range (m * n)` enumerates `f i j` over all pairs `i < m`, `j < n` in
lexicographic order. -/
theorem range_mul_map_div_mod {α : Type} (m n : ℕ) (f : ℕ → ℕ → α) :
    (List.range (m * n)).map (fun e => f (e / n) (e % n)) =
      (List.range m).flatMap (fun i => (List.range n).map (fun j => f i j)) := by
  induction m with
  | zero => simp
  | succ m ih =>
    rw [Nat.succ_mul, List.range_add, List.map_append, List.map_map, ih,
      List.range_succ, List.flatMap_append]
    congr 1
    simp only [List.flatMap_cons, List.flatMap_nil, List.append_nil]
    apply List.map_congr_left
    intro j hj
    have hj' := List.mem_range.mp hj
    have hn : 0 < n := Nat.lt_of_le_of_lt (Nat.zero_le j) hj'
    simp only [Function.comp_apply]
    rw [Nat.add_comm (m * n) j, Nat.add_mul_mod_self_right,
      Nat.mod_eq_of_lt hj', Nat.mul_comm m n, Nat.add_mul_div_left _ _ hn,
      Nat.div_eq_of_lt hj', Nat.zero_add]

/-- Reading entries `0, …, k−1` of a list of length at least `k` via
`getD` gives `take k`. -/
theorem map_getD_range_eq_take (l : List ℝ) :
    ∀ k : ℕ, k ≤ l.length →
      (List.range k).map (fun t => l.getD t 0) = l.take k := by
  intro k
  induction k with
  | zero => simp
  | succ k ih =>
    intro h
    have hk : k < l.length := h
    rw [List.range_succ, List.map_append, ih (Nat.le_of_succ_le h),
      List.take_succ]
    simp [List.getElem?_eq_getElem hk, List.getD_eq_getElem?_getD]

theorem sortDescend_sorted (l : List ℝ) :
    List.Sorted (fun x y => x ≥ y) (sortDescend l) :=
  List.sorted_insertionSort _ l

theorem sortDescend_perm (l : List ℝ) : (sortDescend l).Perm l :=
  List.perm_insertionSort _ l

theorem sortDescend_length (l : List ℝ) : (sortDescend l).length = l.length :=
  List.length_insertionSort _ l

/-- Sorting a concatenation whose left part is already sorted descending
and dominates the right part only sorts the right part. -/
theorem sortDescend_append_dominated (l1 l2 : List ℝ)
    (h1 : List.Sorted (fun x y => x ≥ y) l1)
    (hdom : ∀ u ∈ l1, ∀ v ∈ l2, v ≤ u) :
    sortDescend (l1 ++ l2) = l1 ++ sortDescend l2 := by
  apply List.eq_of_perm_of_sorted
    ((sortDescend_perm _).trans (List.Perm.append_left l1 (sortDescend_perm l2).symm))
    (sortDescend_sorted _)
  apply List.pairwise_append.mpr
  exact ⟨h1, sortDescend_sorted l2,
    fun u hu v hv => hdom u hu v ((sortDescend_perm l2).subset hv)⟩

/-- The first entry of a descending sort is the list maximum. -/
theorem sortDescend_head_eq_max (l : List ℝ) :
    (sortDescend l).getD 0 0 = l.max?.getD 0 := by
  cases hs : sortDescend l with
  | nil =>
    have hl : l = [] := by
      have h := sortDescend_perm l
      rw [hs] at h
      exact h.symm.eq_nil
    rw [hl]
    rfl
  | cons h rest =>
    have hperm := sortDescend_perm l
    rw [hs] at hperm
    have hsorted := sortDescend_sorted l
    rw [hs] at hsorted
    have hmem : h ∈ l := hperm.subset (List.mem_cons_self h rest)
    have hmax : ∀ b ∈ l, b ≤ h := by
      intro b hb
      rcases List.mem_cons.mp (hperm.mem_iff.mpr hb) with hb' | hb'
      · exact le_of_eq hb'
      · exact (List.sorted_cons.mp hsorted).1 b hb'
    haveI anti : Std.Antisymm ((· : ℝ) ≤ ·) := ⟨fun h1 h2 => le_antisymm h1 h2⟩
    have hm : l.max? = some h := by
      rw [List.max?_eq_some_iff le_refl max_choice (fun a b c => max_le_iff)]
      exact ⟨hmem, hmax⟩
    rw [hm]
    rfl

/-- The entries of the first `k` slots of the leading axis, at a fixed
index tail. -/
def slotList (t : Tensor) (k : ℕ) (ix : List ℕ) : List ℝ :=
  (List.range k).map (fun i => t.val (i :: ix))

/-- All k×k pairwise sums `a_i + b_j` of the slots of two K-Max values,
in row-major order — the list the spec says `mul` must select its top-k
from. -/
def pairSumsList (k : ℕ) (a b : Tensor) (ix : List ℕ) : List ℝ :=
  (List.range k).flatMap
    (fun i => (List.range k).map (fun j => a.val (i :: ix) + b.val (j :: ix)))

theorem axisList0_mulPairs (k : ℕ) (a b : Tensor) (ix : List ℕ) :
    KMaxSemiring.axisList0 (KMaxSemiring.mulPairs k a b) ix =
      pairSumsList k a b ix := by
  show (List.range (k * k)).map
      (fun e => a.val (e / k :: ix) + b.val (e % k :: ix)) = _
  exact range_mul_map_div_mod k k (fun i j => a.val (i :: ix) + b.val (j :: ix))

theorem slotList_topkAt0 (k : ℕ) (t : Tensor) (ix : List ℕ)
    (h : k ≤ (KMaxSemiring.axisList0 t ix).length) :
    slotList (KMaxSemiring.topkAt0 k t) k ix =
      (sortDescend (KMaxSemiring.axisList0 t ix)).take k := by
  show (List.range k).map
      (fun i => (sortDescend (KMaxSemiring.axisList0 t ix)).getD i 0) = _
  exact map_getD_range_eq_take _ k (by rw [sortDescend_length]; exact h)

/-- C2: `KMaxSemiring(k).mul` forms all k×k pairwise sums `a_i + b_j`
and returns exactly the k largest of those k² results, sorted
descending, with leading dimension k: the slot list equals the first k
entries of the descending sort of the pairwise-sum list, is sorted, has
length k, and dominates every unselected pairwise sum. -/
theorem claim2_kmax_mul_topk (k : ℕ) (hk : 1 ≤ k) (sh : List ℕ) (a b : Tensor)
    (ha : a.shape = k :: sh) (ix : List ℕ) :
    (KMaxSemiring.mul k a b).shape = k :: sh ∧
    slotList (KMaxSemiring.mul k a b) k ix =
      (sortDescend (pairSumsList k a b ix)).take k ∧
    (pairSumsList k a b ix).length = k * k ∧
    List.Sorted (fun x y => x ≥ y) (slotList (KMaxSemiring.mul k a b) k ix) ∧
    (slotList (KMaxSemiring.mul k a b) k ix).length = k ∧
    ∀ u ∈ slotList (KMaxSemiring.mul k a b) k ix,
      ∀ v ∈ (sortDescend (pairSumsList k a b ix)).drop k, v ≤ u := by
  have hax : (KMaxSemiring.axisList0 (KMaxSemiring.mulPairs k a b) ix).length =
      k * k := by
    show ((List.range ((KMaxSemiring.mulPairs k a b).shape.headD 0)).map _).length = _
    rw [List.length_map, List.length_range]
    rfl
  have hplen : (pairSumsList k a b ix).length = k * k := by
    rw [← axisList0_mulPairs]; exact hax
  have hkk : k ≤ k * k := Nat.le_mul_of_pos_left k hk
  have hslot : slotList (KMaxSemiring.mul k a b) k ix =
      (sortDescend (pairSumsList k a b ix)).take k := by
    unfold KMaxSemiring.mul
    rw [slotList_topkAt0 k _ ix (by rw [hax]; exact hkk), axisList0_mulPairs]
  refine ⟨?_, hslot, hplen, ?_, ?_, ?_⟩
  · show k :: a.shape.tail = k :: sh
    rw [ha]
    rfl
  · rw [hslot]
    exact List.Pairwise.sublist (List.take_sublist k _) (sortDescend_sorted _)
  · rw [hslot, List.length_take, sortDescend_length, hplen]
    exact Nat.min_eq_left hkk
  · rw [hslot]
    intro u hu v hv
    have hsorted := sortDescend_sorted (pairSumsList k a b ix)
    rw [← List.take_append_drop k (sortDescend (pairSumsList k a b ix))] at hsorted
    exact (List.pairwise_append.mp hsorted).2.2 u hu v hv

/-- Witness for C2 at a concrete input. -/
theorem claim2_kmax_mul_topk_witness :
    (1 ≤ 2 ∧ (Tensor.mk [2] (fun _ => (0 : ℝ))).shape = 2 :: []) ∧
    (slotList
        (KMaxSemiring.mul 2 (Tensor.mk [2] (fun _ => (0 : ℝ)))
          (Tensor.mk [2] (fun _ => (0 : ℝ)))) 2 []).length = 2 :=
  ⟨⟨by decide, rfl⟩,
    (claim2_kmax_mul_topk 2 (by decide) [] (Tensor.mk [2] (fun _ => (0 : ℝ)))
      (Tensor.mk [2] (fun _ => (0 : ℝ))) rfl []).2.2.2.2.1⟩

/-! ### Identity-element lemmas (C4) -/

theorem eraseIdx_append_length {α : Type} (l : List α) (a : α) :
    (l ++ [a]).eraseIdx l.length = l := by
  induction l with
  | nil => rfl
  | cons x t ih => simp [List.eraseIdx_cons_succ, ih]

theorem getD_append_length {α : Type} (l : List α) (a d : α) :
    (l ++ [a]).getD l.length d = a := by
  induction l with
  | nil => rfl
  | cons x t ih => simp [ih]

/-- Multiplying the K-Max one-element by `v` pairs slot 0 (score 0) with
every slot of `v` and pads with `NEGINF`-shifted copies. -/
theorem axisList0_mul_one (k : ℕ) (hk : 1 ≤ k) (u v : Tensor) (ix : List ℕ) :
    KMaxSemiring.axisList0
        (KMaxSemiring.mulPairs k (KMaxSemiring.one_ k u) v) ix =
      slotList v k ix ++
        (List.range (k * k - k)).map (fun e => NEGINF + v.val (e % k :: ix)) := by
  have hone : ∀ (i : ℕ) (ixt : List ℕ),
      (KMaxSemiring.one_ k u).val (i :: ixt) = if i = 0 then 0 else NEGINF := by
    intro i ixt
    rfl
  show (List.range (k * k)).map
      (fun e => (KMaxSemiring.one_ k u).val (e / k :: ix) + v.val (e % k :: ix)) = _
  have hsplit : k * k = k + (k * k - k) :=
    (Nat.add_sub_cancel' (Nat.le_mul_of_pos_left k hk)).symm
  nth_rewrite 1 [hsplit]
  rw [List.range_add, List.map_append, List.map_map]
  congr 1
  · apply List.map_congr_left
    intro e he
    have he' := List.mem_range.mp he
    rw [hone, Nat.div_eq_of_lt he', Nat.mod_eq_of_lt he']
    simp
  · apply List.map_congr_left
    intro e _
    simp only [Function.comp_apply]
    rw [hone, Nat.add_comm k e, Nat.add_mod_right, Nat.add_div_right e hk]
    simp [Nat.succ_ne_zero]

theorem slotList_length (t : Tensor) (k : ℕ) (ix : List ℕ) :
    (slotList t k ix).length = k := by
  simp [slotList]

/-- The K-Max multiplicative-identity law, valid when `v`'s slots are
sorted descending and within the sentinel gap of each other. -/
theorem kmax_mul_one_slots (k : ℕ) (hk : 1 ≤ k) (u v : Tensor) (ix : List ℕ)
    (hsort : List.Sorted (fun s1 s2 => s1 ≥ s2) (slotList v k ix))
    (hgap : ∀ s1 ∈ slotList v k ix, ∀ s2 ∈ slotList v k ix, NEGINF + s2 ≤ s1) :
    slotList (KMaxSemiring.mul k (KMaxSemiring.one_ k u) v) k ix =
      slotList v k ix := by
  have hax : (KMaxSemiring.axisList0
      (KMaxSemiring.mulPairs k (KMaxSemiring.one_ k u) v) ix).length = k * k := by
    show ((List.range _).map _).length = _
    rw [List.length_map, List.length_range]
    rfl
  have hkk : k ≤ k * k := Nat.le_mul_of_pos_left k hk
  have hdom : ∀ s1 ∈ slotList v k ix,
      ∀ w ∈ (List.range (k * k - k)).map (fun e => NEGINF + v.val (e % k :: ix)),
        w ≤ s1 := by
    intro s1 hs1 w hw
    rcases List.mem_map.mp hw with ⟨e, _, rfl⟩
    exact hgap s1 hs1 (v.val (e % k :: ix))
      (List.mem_map.mpr ⟨e % k, List.mem_range.mpr (Nat.mod_lt e hk), rfl⟩)
  unfold KMaxSemiring.mul
  rw [slotList_topkAt0 k _ ix (by rw [hax]; exact hkk), axisList0_mul_one k hk,
    sortDescend_append_dominated _ _ hsort hdom,
    List.take_left' (slotList_length v k ix)]

/-- C4 (counterexample): the claim that `mul(one_(x), y) == y` holds for
every semiring and every unconstrained value `y` fails for K-Max: with
k = 2 and the (unsorted) value `y = (0, 1)`, `mul(one_(x), y)` is the
descending sort `(1, 0)`, not `y`. -/
theorem claim4_counterexample :
    KMaxSemiring.mul 2
        (KMaxSemiring.one_ 2 (Tensor.mk [2] (fun _ => 0)))
        (Tensor.mk [2] (fun jx => if jx.headD 0 = 0 then 0 else 1)) ≠
      Tensor.mk [2] (fun jx => if jx.headD 0 = 0 then 0 else 1) := by
  intro h
  have h2 := congrArg (fun t => t.val [0]) h
  simp only [KMaxSemiring.mul, KMaxSemiring.topkAt0, KMaxSemiring.axisList0,
    KMaxSemiring.mulPairs, KMaxSemiring.one_, Tensor.setComp, Tensor.comp,
    Tensor.fill, sortDescend] at h2
  norm_num [List.range_succ, List.insertionSort, List.orderedInsert, NEGINF] at h2

/-- C4 (amended): one_-filled tensors are a multiplicative identity for
the counting, log, max and expectation semirings on arbitrary values
(for the composite semirings, at every component position), and
zero_-filled tensors are an additive identity for the counting semiring
(`sum(stack([zero_(x), y], dim=-1), -1) = y`).  For K-Max,
`mul(one_(x), v) = v` holds on the k slots whenever `v`'s slots are
sorted descending and lie within the `NEGINF` sentinel gap of each
other (and fails for general unsorted `v`). -/
theorem claim4_identity_elements (x y u v : Tensor) (hxy : x.shape = y.shape)
    (k : ℕ) (hk : 1 ≤ k) (ix : List ℕ)
    (hsort : List.Sorted (fun s1 s2 => s1 ≥ s2) (slotList v k ix))
    (hgap : ∀ s1 ∈ slotList v k ix, ∀ s2 ∈ slotList v k ix, NEGINF + s2 ≤ s1) :
    StdSemiring.mul (BaseStd.one_ x) y = y ∧
    (∃ t, StdSemiring.plus (BaseStd.zero_ x) y = some t ∧ Tensor.Teq t y) ∧
    LogSemiring.mul (BaseLog.one_ x) y = y ∧
    MaxSemiring.mul (MaxSemiring.one_ x) y = y ∧
    ((KLDivergenceSemiring.mul (KLDivergenceSemiring.one_ x) y).shape = y.shape ∧
      ∀ i ixt, i < 3 →
        (KLDivergenceSemiring.mul (KLDivergenceSemiring.one_ x) y).val (i :: ixt) =
          y.val (i :: ixt)) ∧
    ((CrossEntropySemiring.mul (CrossEntropySemiring.one_ x) y).shape = y.shape ∧
      ∀ i ixt, i < 3 →
        (CrossEntropySemiring.mul (CrossEntropySemiring.one_ x) y).val (i :: ixt) =
          y.val (i :: ixt)) ∧
    ((EntropySemiring.mul (EntropySemiring.one_ x) y).shape = y.shape ∧
      ∀ i ixt, i < 2 →
        (EntropySemiring.mul (EntropySemiring.one_ x) y).val (i :: ixt) =
          y.val (i :: ixt)) ∧
    ((RiskSemiring.mul (RiskSemiring.one_ x) y).shape = y.shape ∧
      ∀ i ixt, i < 3 →
        (RiskSemiring.mul (RiskSemiring.one_ x) y).val (i :: ixt) =
          y.val (i :: ixt)) ∧
    slotList (KMaxSemiring.mul k (KMaxSemiring.one_ k u) v) k ix =
      slotList v k ix := by
  have hstd : StdSemiring.mul (BaseStd.one_ x) y = y := by
    apply Tensor.ext
    · exact hxy
    · funext iz
      show 1 * y.val iz = y.val iz
      exact one_mul _
  have hlog : LogSemiring.mul (BaseLog.one_ x) y = y := by
    apply Tensor.ext
    · exact hxy
    · funext iz
      show 0 + y.val iz = y.val iz
      exact zero_add _
  have hzero : ∃ t, StdSemiring.plus (BaseStd.zero_ x) y = some t ∧
      Tensor.Teq t y := by
    have hr : (Tensor.stackLast2 (BaseStd.zero_ x) y).rank = x.shape.length + 1 := by
      show (x.shape ++ [2]).length = _
      simp
    have hg : Tensor.dimOk (Tensor.stackLast2 (BaseStd.zero_ x) y).rank (-1) := by
      unfold Tensor.dimOk
      rw [hr]
      omega
    have hnd : Tensor.normDim (Tensor.stackLast2 (BaseStd.zero_ x) y).rank (-1) =
        x.shape.length := by
      unfold Tensor.normDim
      rw [hr]
      split_ifs <;> omega
    refine ⟨(Tensor.stackLast2 (BaseStd.zero_ x) y).sumAt x.shape.length, ?_, ?_, ?_⟩
    · unfold StdSemiring.plus StdSemiring.sum
      rw [if_pos hg, hnd]
    · show (x.shape ++ [2]).eraseIdx x.shape.length = y.shape
      rw [eraseIdx_append_length, hxy]
    · intro iz hiz
      have hlenIz : iz.length = x.shape.length := by
        have h1 := Tensor.Ix.length_eq hiz
        rw [show ((Tensor.stackLast2 (BaseStd.zero_ x) y).sumAt
            x.shape.length).shape = x.shape from eraseIdx_append_length _ _] at h1
        exact h1
      have hins : ∀ j : ℕ, iz.insertIdx x.shape.length j = iz ++ [j] := by
        intro j
        rw [← hlenIz]
        exact List.insertIdx_length_self iz j
      show (∑ j ∈ Finset.range
          ((Tensor.stackLast2 (BaseStd.zero_ x) y).dimSize x.shape.length),
          (Tensor.stackLast2 (BaseStd.zero_ x) y).val
            (iz.insertIdx x.shape.length j)) = y.val iz
      have hdim : (Tensor.stackLast2 (BaseStd.zero_ x) y).dimSize
          x.shape.length = 2 := getD_append_length _ _ _
      rw [hdim]
      simp [Finset.sum_range_succ, hins, Tensor.stackLast2, BaseStd.zero_,
        Tensor.fill, List.getLastD_concat]
  have hcomp0 : ∀ i : ℕ, i < 3 →
      ∀ ixt, (KLDivergenceSemiring.one_ x).val (i :: ixt) = 0 := by
    intro i hi ixt
    rcases i with _ | _ | _ | n
    · rfl
    · rfl
    · rfl
    · omega
  have hcompE : ∀ i : ℕ, i < 2 →
      ∀ ixt, (EntropySemiring.one_ x).val (i :: ixt) = 0 := by
    intro i hi ixt
    rcases i with _ | _ | n
    · rfl
    · rfl
    · omega
  refine ⟨hstd, hzero, hlog, hlog, ⟨hxy, ?_⟩, ⟨hxy, ?_⟩, ⟨hxy, ?_⟩, ⟨hxy, ?_⟩,
    kmax_mul_one_slots k hk u v ix hsort hgap⟩
  · intro i ixt hi
    show (KLDivergenceSemiring.one_ x).val (i :: ixt) + y.val (i :: ixt) =
      y.val (i :: ixt)
    rw [hcomp0 i hi ixt, zero_add]
  · intro i ixt hi
    show (CrossEntropySemiring.one_ x).val (i :: ixt) + y.val (i :: ixt) =
      y.val (i :: ixt)
    rw [show (CrossEntropySemiring.one_ x).val (i :: ixt) =
      (KLDivergenceSemiring.one_ x).val (i :: ixt) from rfl, hcomp0 i hi ixt,
      zero_add]
  · intro i ixt hi
    show (EntropySemiring.one_ x).val (i :: ixt) + y.val (i :: ixt) =
      y.val (i :: ixt)
    rw [hcompE i hi ixt, zero_add]
  · intro i ixt hi
    show (RiskSemiring.one_ x).val (i :: ixt) + y.val (i :: ixt) =
      y.val (i :: ixt)
    rw [show (RiskSemiring.one_ x).val (i :: ixt) =
      (KLDivergenceSemiring.one_ x).val (i :: ixt) from rfl, hcomp0 i hi ixt,
      zero_add]

/-- Witness for C4 at concrete inputs. -/
theorem claim4_identity_elements_witness :
    ((Tensor.mk [2] (fun _ => (3 : ℝ))).shape =
        (Tensor.mk [2] (fun _ => (5 : ℝ))).shape ∧
      1 ≤ 1 ∧
      List.Sorted (fun s1 s2 => s1 ≥ s2)
        (slotList (Tensor.mk [1] (fun _ => 0)) 1 []) ∧
      (∀ s1 ∈ slotList (Tensor.mk [1] (fun _ => 0)) 1 [],
        ∀ s2 ∈ slotList (Tensor.mk [1] (fun _ => 0)) 1 [],
          NEGINF + s2 ≤ s1)) ∧
    StdSemiring.mul (BaseStd.one_ (Tensor.mk [2] (fun _ => (3 : ℝ))))
        (Tensor.mk [2] (fun _ => (5 : ℝ))) =
      Tensor.mk [2] (fun _ => (5 : ℝ)) := by
  have hsort : List.Sorted (fun s1 s2 => s1 ≥ s2)
      (slotList (Tensor.mk [1] (fun _ => 0)) 1 []) := by
    simp [slotList]
  have hgap : ∀ s1 ∈ slotList (Tensor.mk [1] (fun _ => 0)) 1 [],
      ∀ s2 ∈ slotList (Tensor.mk [1] (fun _ => 0)) 1 [],
        NEGINF + s2 ≤ s1 := by
    intro s1 hs1 s2 hs2
    simp [slotList] at hs1 hs2
    rw [hs1, hs2]
    norm_num [NEGINF]
  exact ⟨⟨rfl, le_refl 1, hsort, hgap⟩,
    (claim4_identity_elements (Tensor.mk [2] (fun _ => (3 : ℝ)))
      (Tensor.mk [2] (fun _ => (5 : ℝ))) (Tensor.mk [1] (fun _ => 0))
      (Tensor.mk [1] (fun _ => 0)) rfl 1 (le_refl 1) [] hsort hgap).1⟩

/-- C6: with k = 1 and identical inputs, `KMaxSemiring(1).sum` over the
last axis and `KMaxSemiring(1).mul` agree with `MaxSemiring.sum` and
`MaxSemiring.mul` on the corresponding unconverted values. -/
theorem claim6_kmax1_matches_max (p x y : Tensor) (hp : p.shape ≠ []) :
    (∃ s t, KMaxSemiring.sum 1 (KMaxSemiring.convert 1 p) (-1) = some s ∧
        MaxSemiring.sum p (-1) = some t ∧
        Tensor.Teq (KMaxSemiring.unconvert s) t) ∧
    KMaxSemiring.unconvert
        (KMaxSemiring.mul 1 (KMaxSemiring.convert 1 x) (KMaxSemiring.convert 1 y)) =
      MaxSemiring.mul x y := by
  obtain ⟨l', aN, hsh⟩ : ∃ l' aN, p.shape = l' ++ [aN] :=
    ⟨p.shape.dropLast, p.shape.getLast hp, (List.dropLast_append_getLast hp).symm⟩
  have hrank : 1 ≤ p.rank := by
    unfold Tensor.rank
    exact List.length_pos.mpr hp
  have hg : Tensor.dimOk p.rank (-1) := by
    unfold Tensor.dimOk
    omega
  have hnd : Tensor.normDim p.rank (-1) = p.rank - 1 := by
    unfold Tensor.normDim
    split_ifs <;> omega
  constructor
  · refine ⟨KMaxSemiring.sumLast 1 (KMaxSemiring.convert 1 p),
      p.maxAt (p.rank - 1), ?_, ?_, ?_, ?_⟩
    · unfold KMaxSemiring.sum
      rw [if_pos rfl]
    · unfold MaxSemiring.sum
      rw [if_pos hg, hnd]
    -- shape agreement
    · show ((((p.shape ++ [1]).dropLast.dropLast ++
          [(p.shape ++ [1]).dropLast.getLastD 0 * (p.shape ++ [1]).getLastD 0]
          ).dropLast ++ [1]).dropLast : List ℕ) = (p.shape.eraseIdx (p.rank - 1))
      simp only [List.dropLast_concat]
      unfold Tensor.rank
      rw [hsh]
      simp only [List.dropLast_concat, List.length_append, List.length_cons,
        List.length_nil, Nat.zero_add, Nat.add_sub_cancel]
      rw [eraseIdx_append_length]
    -- value agreement at every valid index
    · intro iz hiz
      have hlen : iz.length = l'.length := by
        have h1 := Tensor.Ix.length_eq hiz
        rw [show ((KMaxSemiring.unconvert
            (KMaxSemiring.sumLast 1 (KMaxSemiring.convert 1 p))).shape :
            List ℕ) = ((((p.shape ++ [1]).dropLast.dropLast ++
            [(p.shape ++ [1]).dropLast.getLastD 0 * (p.shape ++ [1]).getLastD 0]
            ).dropLast ++ [1]).dropLast : List ℕ) from rfl] at h1
        simp only [List.dropLast_concat] at h1
        rw [hsh, List.dropLast_concat] at h1
        exact h1
      have hval1 : (KMaxSemiring.unconvert
          (KMaxSemiring.sumLast 1 (KMaxSemiring.convert 1 p))).val iz =
          (sortDescend (KMaxSemiring.axisListLast
            (KMaxSemiring.flattenLast2
              (KMaxSemiring.moveFrontToBack (KMaxSemiring.convert 1 p)))
            (iz ++ [0]).dropLast)).getD ((iz ++ [0]).getLastD 0) 0 := rfl
      rw [List.dropLast_concat, List.getLastD_concat] at hval1
      have hMsh : (KMaxSemiring.moveFrontToBack
          (KMaxSemiring.convert 1 p)).shape = p.shape ++ [1] := rfl
      have hMval : ∀ ar : List ℕ,
          (KMaxSemiring.moveFrontToBack (KMaxSemiring.convert 1 p)).val ar =
            (KMaxSemiring.convert 1 p).val (ar.getLastD 0 :: ar.dropLast) :=
        fun _ => rfl
      have hAval : ∀ w : List ℕ,
          (KMaxSemiring.convert 1 p).val (0 :: w) = p.val w := fun _ => rfl
      have hFsh : (KMaxSemiring.flattenLast2
          (KMaxSemiring.moveFrontToBack (KMaxSemiring.convert 1 p))).shape =
          (p.shape ++ [1]).dropLast.dropLast ++
            [(p.shape ++ [1]).dropLast.getLastD 0 * (p.shape ++ [1]).getLastD 0] := by
        unfold KMaxSemiring.flattenLast2
        rw [hMsh]
      have hFval : ∀ ar : List ℕ,
          (KMaxSemiring.flattenLast2
            (KMaxSemiring.moveFrontToBack (KMaxSemiring.convert 1 p))).val ar =
            (KMaxSemiring.moveFrontToBack (KMaxSemiring.convert 1 p)).val
              (ar.dropLast ++ [ar.getLastD 0 / (p.shape ++ [1]).getLastD 0,
                ar.getLastD 0 % (p.shape ++ [1]).getLastD 0]) := by
        intro ar
        unfold KMaxSemiring.flattenLast2
        rw [hMsh]
      have hax : KMaxSemiring.axisListLast
          (KMaxSemiring.flattenLast2
            (KMaxSemiring.moveFrontToBack (KMaxSemiring.convert 1 p))) iz =
          (List.range (p.shape.getLastD 0)).map (fun j => p.val (iz ++ [j])) := by
        unfold KMaxSemiring.axisListLast
        rw [hFsh]
        rw [List.dropLast_concat, List.getLastD_concat, List.getLastD_concat,
          Nat.mul_one]
        apply List.map_congr_left
        intro j _
        rw [hFval (iz ++ [j]), List.dropLast_concat, List.getLastD_concat,
          List.getLastD_concat, Nat.div_one, Nat.mod_one,
          hMval (iz ++ [j, 0]),
          show (iz ++ [j, 0]) = (iz ++ [j]) ++ [0] by simp,
          List.getLastD_concat, List.dropLast_concat, hAval (iz ++ [j])]
      rw [hax, sortDescend_head_eq_max] at hval1
      have hax2 : Tensor.axisListAt p (p.rank - 1) iz =
          (List.range (p.shape.getLastD 0)).map (fun j => p.val (iz ++ [j])) := by
        unfold Tensor.axisListAt
        have hdim : p.dimSize (p.rank - 1) = p.shape.getLastD 0 := by
          unfold Tensor.dimSize Tensor.rank
          rw [hsh]
          simp only [List.length_append, List.length_cons, List.length_nil,
            Nat.zero_add, Nat.add_sub_cancel]
          rw [getD_append_length, List.getLastD_concat]
        rw [hdim]
        apply List.map_congr_left
        intro j _
        congr 1
        have hlen2 : p.rank - 1 = iz.length := by
          unfold Tensor.rank
          rw [hsh]
          simp only [List.length_append, List.length_cons, List.length_nil]
          omega
        rw [hlen2]
        exact List.insertIdx_length_self iz j
      rw [hval1]
      show ((List.range (p.shape.getLastD 0)).map
          (fun j => p.val (iz ++ [j]))).max?.getD 0 =
        (Tensor.axisListAt p (p.rank - 1) iz).max?.getD 0
      rw [hax2]
  · rfl

/-- Witness for C6 at concrete inputs. -/
theorem claim6_kmax1_matches_max_witness :
    (Tensor.mk [2] (fun _ => (0 : ℝ))).shape ≠ [] ∧
    KMaxSemiring.unconvert
        (KMaxSemiring.mul 1
          (KMaxSemiring.convert 1 (Tensor.mk [2] (fun _ => (1 : ℝ))))
          (KMaxSemiring.convert 1 (Tensor.mk [2] (fun _ => (2 : ℝ))))) =
      MaxSemiring.mul (Tensor.mk [2] (fun _ => (1 : ℝ)))
        (Tensor.mk [2] (fun _ => (2 : ℝ))) :=
  ⟨by decide,
    (claim6_kmax1_matches_max (Tensor.mk [2] (fun _ => (0 : ℝ)))
      (Tensor.mk [2] (fun _ => (1 : ℝ))) (Tensor.mk [2] (fun _ => (2 : ℝ)))
      (by decide)).2⟩

/-- Witness for C1 at a concrete input. -/
theorem claim1_kl_sum_witness :
    expGuard ((Tensor.mk [3, 2] (fun _ => (0 : ℝ))).shape.tail.length) 1 ∧
    KLDivergenceSemiring.sum (Tensor.mk [3, 2] (fun _ => (0 : ℝ))) 1 =
      some (KLsumSpec (Tensor.mk [3, 2] (fun _ => (0 : ℝ)))
        (expAxis ((Tensor.mk [3, 2] (fun _ => (0 : ℝ))).shape.tail.length) 1)) :=
  ⟨by decide, claim1_kl_sum (Tensor.mk [3, 2] (fun _ => (0 : ℝ))) 1 (by decide)⟩

/-- Witness for C9 at a concrete input. -/
theorem claim9_risk_sum_witness :
    expGuard ((Tensor.mk [3, 2] (fun _ => (0 : ℝ))).shape.tail.length) 1 ∧
    RiskSemiring.sum (Tensor.mk [3, 2] (fun _ => (0 : ℝ))) 1 =
      some (RiskSumSpec (Tensor.mk [3, 2] (fun _ => (0 : ℝ)))
        (expAxis ((Tensor.mk [3, 2] (fun _ => (0 : ℝ))).shape.tail.length) 1)) :=
  ⟨by decide,
    (claim9_risk_sum (Tensor.mk [3, 2] (fun _ => (0 : ℝ))) 1 (by decide)).1⟩

/-- Witness for C10 at a concrete input. -/
theorem claim10_expectation_dim_shift_witness :
    (1 ≤ 1 ∧ 1 ≤ (Tensor.mk [3, 2] (fun _ => (0 : ℝ))).shape.tail.length) ∧
    KLDivergenceSemiring.sum (Tensor.mk [3, 2] (fun _ => (0 : ℝ))) 1 =
      some (KLDivergenceSemiring.sumBody (Tensor.mk [3, 2] (fun _ => (0 : ℝ))) 0) :=
  ⟨⟨by decide, by decide⟩,
    (claim10_expectation_dim_shift (Tensor.mk [3, 2] (fun _ => (0 : ℝ))) 1
      (by decide) (by decide)).1.1⟩

/-! ### Claims about `convert` / `unconvert` / `size` -/

/-- C7: for every concrete semiring the leading dimension length of
`convert(p)` equals `size()`: 1 for Counting/Log/Max, k for
`KMaxSemiring(k)`, 2 for Entropy, and 3 for KL-Divergence, Cross-Entropy
and Risk. -/
theorem claim7_convert_leading_dim_eq_size (p q : Tensor) (k : ℕ) :
    ((StdSemiring.convert p).shape.headD 0 = StdSemiring.size ∧ StdSemiring.size = 1) ∧
    ((LogSemiring.convert p).shape.headD 0 = LogSemiring.size ∧ LogSemiring.size = 1) ∧
    ((MaxSemiring.convert p).shape.headD 0 = MaxSemiring.size ∧ MaxSemiring.size = 1) ∧
    ((KMaxSemiring.convert k p).shape.headD 0 = KMaxSemiring.size k ∧
      KMaxSemiring.size k = k) ∧
    ((KLDivergenceSemiring.convert p q).shape.headD 0 = KLDivergenceSemiring.size ∧
      KLDivergenceSemiring.size = 3) ∧
    ((CrossEntropySemiring.convert p q).shape.headD 0 = CrossEntropySemiring.size ∧
      CrossEntropySemiring.size = 3) ∧
    ((EntropySemiring.convert p).shape.headD 0 = EntropySemiring.size ∧
      EntropySemiring.size = 2) ∧
    ((RiskSemiring.convert p q).shape.headD 0 = RiskSemiring.size ∧
      RiskSemiring.size = 3) :=
  ⟨⟨rfl, rfl⟩, ⟨rfl, rfl⟩, ⟨rfl, rfl⟩, ⟨rfl, rfl⟩, ⟨rfl, rfl⟩, ⟨rfl, rfl⟩,
    ⟨rfl, rfl⟩, ⟨rfl, rfl⟩⟩

/-- C3 (counterexample): the claim "unconvert(convert(p)) equals p for
every concrete semiring" is false: the Entropy semiring's `unconvert`
extracts the running-statistic component, which `convert` initializes to
zero, so the round trip on the one-entry potentials tensor with value 1
returns the zero tensor, not the input. -/
theorem claim3_counterexample :
    EntropySemiring.unconvert
        (EntropySemiring.convert (Tensor.mk [1] (fun _ => 1))) ≠
      Tensor.mk [1] (fun _ => 1) := by
  intro h
  have h2 := congrArg (fun t => t.val [0]) h
  simp only [EntropySemiring.unconvert, EntropySemiring.convert, Tensor.comp,
    Tensor.setComp, Tensor.fill] at h2
  norm_num at h2

/-- C3 (amended): `unconvert` is a left inverse of `convert` for the
simple semirings (Counting, Log, Max) and for K-Max; for the expectation
semirings (KL-Divergence, Cross-Entropy, Entropy, Risk) `unconvert`
extracts only the statistic component, so the round trip returns the
zero-filled statistic tensor of the input's shape, not the input. -/
theorem claim3_convert_unconvert (p q : Tensor) (k : ℕ) :
    StdSemiring.unconvert (StdSemiring.convert p) = p ∧
    LogSemiring.unconvert (LogSemiring.convert p) = p ∧
    MaxSemiring.unconvert (MaxSemiring.convert p) = p ∧
    KMaxSemiring.unconvert (KMaxSemiring.convert k p) = p ∧
    KLDivergenceSemiring.unconvert (KLDivergenceSemiring.convert p q) = p.fill 0 ∧
    CrossEntropySemiring.unconvert (CrossEntropySemiring.convert p q) = p.fill 0 ∧
    EntropySemiring.unconvert (EntropySemiring.convert p) = p.fill 0 ∧
    RiskSemiring.unconvert (RiskSemiring.convert p q) = p.fill 0 :=
  ⟨rfl, rfl, rfl, rfl, rfl, rfl, rfl, rfl⟩

end Semirings
